import Mathlib

/-!
# Ada Chat front end: think-segment parsing, sidebar visibility, message sending

A shallow embedding of the pure logic of `frontend/src/Messages.js`,
`frontend/src/Sidebar.js` and `frontend/src/App.js`, with the properties the
specification states about it.

A JavaScript string is modelled as the list of its UTF-16 code units, since the
source indexes strings by code unit (`match.index`, `regex.lastIndex`, `slice`,
`length`).
-/

namespace AdaChat

/-! ## JavaScript strings -/

/-- A JavaScript string, as the sequence of its UTF-16 code units. -/
abbrev JsString := List Nat

/-- UTF-16 encoding of one Unicode scalar value. -/
def utf16 (c : Char) : List Nat :=
  if c.toNat < 65536 then [c.toNat]
  else [55296 + (c.toNat - 65536) / 1024, 56320 + (c.toNat - 65536) % 1024]

/-- The JavaScript string written as the literal `s`. -/
def js (s : String) : JsString := s.toList.flatMap utf16

/-- `s.slice(a, b)` for `0 ≤ a`, `0 ≤ b`. -/
def slice (s : JsString) (a b : Nat) : JsString := (s.drop a).take (b - a)

/-- `s.slice(a)` for `0 ≤ a`. -/
def sliceFrom (s : JsString) (a : Nat) : JsString := s.drop a

/-- The string a template literal makes of a non-negative integer below `10 ^ 21`, as every
array index and string offset is: its decimal digits, most significant first. -/
def numberToString (n : Nat) : JsString :=
  if n = 0 then [48] else ((Nat.digits 10 n).reverse).map (fun d => 48 + d)

/-! ## Messages.js: the regular expression `/<think>([\s\S]*?)<\/think>/g` -/

/-- The literal `<think>` of the regular expression. -/
def openMarker : JsString := [60, 116, 104, 105, 110, 107, 62]

/-- The literal `</think>` of the regular expression. -/
def closeMarker : JsString := [60, 47, 116, 104, 105, 110, 107, 62]

/-- The lazy group `([\s\S]*?)` followed by `<\/think>`, tried at the head of `t`: the capture
grows one code unit at a time until `</think>` follows it. The result is the length of the
capture. -/
def lazyBody : JsString → Option Nat
  | [] => none
  | c :: cs =>
    if closeMarker.isPrefixOf (c :: cs) then some 0
    else (lazyBody cs).map (fun n => n + 1)

/-- The whole pattern tried at the head of `t`: on success, the capture `match[1]` and the length
of `match[0]`. -/
def matchHere (t : JsString) : Option (JsString × Nat) :=
  if openMarker.isPrefixOf t then
    (lazyBody (t.drop 7)).map (fun n => ((t.drop 7).take n, 7 + n + 8))
  else none

/-- The pattern tried at each start position of `t` in turn, leftmost first: on success, the
start position relative to `t`, the capture and the length of the match. -/
def searchFrom : JsString → Option (Nat × JsString × Nat)
  | [] => none
  | c :: cs =>
    match matchHere (c :: cs) with
    | some m => some (0, m.1, m.2)
    | none => (searchFrom cs).map (fun r => (r.1 + 1, r.2.1, r.2.2))

/-- What one successful `regex.exec` yields: `match.index`, `match[1]` and the value of
`regex.lastIndex` afterwards. -/
structure ExecResult where
  index : Nat
  group1 : JsString
  lastIndex : Nat
  deriving DecidableEq, Repr

/-- The call `regex.exec(s)` of a global regular expression whose `lastIndex` is `lastIndex`:
`none` stands for `null`. -/
def exec (s : JsString) (lastIndex : Nat) : Option ExecResult :=
  if s.length < lastIndex then none
  else (searchFrom (s.drop lastIndex)).map
    (fun r => ⟨lastIndex + r.1, r.2.1, lastIndex + r.1 + r.2.2⟩)

/-! ## Messages.js: the parts of a message -/

/-- The `type` of a part. -/
inductive PartType where
  | text
  | think
  deriving DecidableEq, Repr

/-- An element of `parts`; `id` is present on `think` parts only. -/
structure Part where
  type : PartType
  content : JsString
  id : Option JsString
  deriving DecidableEq, Repr

/-- A chat message `{ role, content }`. -/
structure Msg where
  role : JsString
  content : JsString
  deriving DecidableEq, Repr

/-- The template literal with `messageIndex`, a dash and `lastIndex`. -/
def thoughtId (messageIndex lastIndex : Nat) : JsString :=
  numberToString messageIndex ++ [45] ++ numberToString lastIndex

/-- The `while` loop of `Message`, with the loop variables `lastIndex` and `parts` as state. Each
iteration costs one unit of fuel; `none` means the fuel ran out before `exec` returned `null`. -/
def whileLoop (messageIndex : Nat) (content : JsString) :
    Nat → Nat → List Part → Option (Nat × List Part)
  | 0, _, _ => none
  | fuel + 1, lastIndex, parts =>
    match exec content lastIndex with
    | none => some (lastIndex, parts)
    | some m =>
      let parts1 :=
        if m.index > lastIndex then
          parts ++ [⟨PartType.text, slice content lastIndex m.index, none⟩]
        else parts
      let parts2 := parts1 ++ [⟨PartType.think, m.group1, some (thoughtId messageIndex lastIndex)⟩]
      whileLoop messageIndex content fuel m.lastIndex parts2

/-- The array `parts` that `Message` builds for `msg` rendered at `messageIndex`. The loop gets
`content.length + 1` units of fuel. -/
def messageParts (msg : Msg) (messageIndex : Nat) : Option (List Part) :=
  let isUser := decide (msg.role = js "user")
  if !isUser then
    (whileLoop messageIndex msg.content (msg.content.length + 1) 0 []).map
      (fun r =>
        if r.1 < msg.content.length then
          r.2 ++ [⟨PartType.text, sliceFrom msg.content r.1, none⟩]
        else r.2)
  else some [⟨PartType.text, msg.content, none⟩]

/-- The message `{ role: 'assistant', content }`. -/
def assistantMsg (content : JsString) : Msg := ⟨js "assistant", content⟩

/-- The message `{ role: 'user', content }`. -/
def userMsg (content : JsString) : Msg := ⟨js "user", content⟩

/-- The `messages.map((msg, idx) => <Message msg={msg} messageIndex={idx} />)` of `App`, from
index `idx` on: the parts of every message of the transcript. -/
def renderFrom : Nat → List Msg → Option (List (List Part))
  | _, [] => some []
  | idx, msg :: rest =>
    match messageParts msg idx, renderFrom (idx + 1) rest with
    | some ps, some pss => some (ps :: pss)
    | _, _ => none

/-- The parts of every message of the transcript, as `App` renders them. -/
def renderAll (messages : List Msg) : Option (List (List Part)) := renderFrom 0 messages

/-- The identifiers of the `think` parts among `parts`, in order. -/
def thinkIds (parts : List Part) : List (Option JsString) :=
  (parts.filter (fun p => decide (p.type = PartType.think))).map (fun p => p.id)

/-- The number of code units of the message content that a part stands for: a `think` part
stands for its content and the two markers around it. -/
def sourceLength (p : Part) : Nat :=
  match p.type with
  | PartType.text => p.content.length
  | PartType.think => 7 + p.content.length + 8

/-- The length of the text part that ends `before`, and 0 when `before` does not end with a
text part. -/
def trailingTextLength (before : List Part) : Nat :=
  match before.getLast? with
  | some q => if q.type = PartType.text then q.content.length else 0
  | none => 0

/-- Every think part of `parts` stands for a marked span of `content` that begins where the
parts before it end, and its identifier is made from `messageIndex` and the offset at which the
parts before it end, less the length of the text part right before it, if there is one. -/
def ThoughtIdsAt (messageIndex : Nat) (content : JsString) (parts : List Part) : Prop :=
  ∀ (before : List Part) (p : Part) (after : List Part),
    parts = before ++ p :: after → p.type = PartType.think →
    (openMarker ++ p.content ++ closeMarker) <+: content.drop ((before.map sourceLength).sum) ∧
    p.id = some (thoughtId messageIndex
      ((before.map sourceLength).sum - trailingTextLength before))

/-! ## The specification's reading of "delimiter markers removed" -/

/-- Following the specification's words: scan the text left to right; an opening marker that is
followed later by a closing marker starts a pair, the next closing marker ends it, and the two
markers of every such pair are deleted while every other code unit is kept. `inside` tells
whether the scan is between the markers of a pair, `skip` how many code units of a marker are
still to be deleted. -/
def removeMarkers : Bool → Nat → JsString → JsString
  | _, _, [] => []
  | inside, skip + 1, _ :: cs => removeMarkers inside skip cs
  | false, 0, c :: cs =>
    if openMarker <+: (c :: cs) ∧ closeMarker <:+: (c :: cs).drop 7 then removeMarkers true 6 cs
    else c :: removeMarkers false 0 cs
  | true, 0, c :: cs =>
    if closeMarker <+: (c :: cs) then removeMarkers false 7 cs
    else c :: removeMarkers true 0 cs

/-- The input text with the markers of every matched pair removed. -/
def withoutMarkers (s : JsString) : JsString := removeMarkers false 0 s

/-- The text contains a delimiter pair: a `<think>` followed later by a `</think>`. -/
def HasPair (s : JsString) : Prop :=
  ∃ pre mid post, s = pre ++ openMarker ++ mid ++ closeMarker ++ post

/-! ## Sidebar.js -/

/-- The two state variables of `Sidebar`. -/
structure SidebarState where
  isPinned : Bool
  isVisible : Bool
  deriving DecidableEq, Repr

namespace Sidebar

/-- The values of `useState(false)` for both variables. -/
def initial : SidebarState := ⟨false, false⟩

/-- The label the effect passes to `onStateChange`. -/
def reported (s : SidebarState) : JsString :=
  if s.isPinned then js "pinned"
  else if s.isVisible then js "visible"
  else js "hidden"

/-- The state after `handleHamburgerClick`. -/
def handleHamburgerClick (s : SidebarState) : SidebarState :=
  if !s.isVisible && !s.isPinned then { s with isVisible := true }
  else if s.isVisible && !s.isPinned then { isPinned := true, isVisible := true }
  else { isPinned := false, isVisible := false }

/-- The state after `handleMouseEnter`. -/
def handleMouseEnter (s : SidebarState) : SidebarState :=
  if !s.isPinned then { s with isVisible := true } else s

/-- The state after `handleMouseLeave`. -/
def handleMouseLeave (s : SidebarState) : SidebarState :=
  if !s.isPinned then { s with isVisible := false } else s

/-- The events the component handles. -/
inductive Event where
  | click
  | mouseEnter
  | mouseLeave
  deriving DecidableEq, Repr

/-- The state after one event. -/
def step (s : SidebarState) : Event → SidebarState
  | Event.click => handleHamburgerClick s
  | Event.mouseEnter => handleMouseEnter s
  | Event.mouseLeave => handleMouseLeave s

/-- The state after a sequence of events, from the initial state. -/
def run (events : List Event) : SidebarState := events.foldl step initial

end Sidebar

/-! ## App.js: `sendMessage` -/

/-- The state variables of `App` that `sendMessage` reads or writes. -/
structure AppState where
  messages : List Msg
  input : JsString
  isLoading : Bool
  isExpanded : Bool
  deriving DecidableEq, Repr

/-- How the promise of `axios.post` settles: fulfilled, with the value of
`response?.data?.message?.content` when it is neither `null` nor `undefined`, or rejected. -/
inductive PostResult where
  | fulfilled (content : Option JsString)
  | rejected
  deriving DecidableEq, Repr

/-- The code units `String.prototype.trim` strips: white space and line terminators. -/
def isTrimmed (c : Nat) : Bool :=
  decide (c ∈ [9, 10, 11, 12, 13, 32, 160, 5760, 8192, 8193, 8194, 8195, 8196, 8197, 8198,
    8199, 8200, 8201, 8202, 8232, 8233, 8239, 8287, 12288, 65279])

/-- `String.prototype.trim`. -/
def trim (s : JsString) : JsString :=
  (((s.dropWhile isTrimmed).reverse).dropWhile isTrimmed).reverse

/-- `sendMessage` up to the `await`: `none` when the guard returns early, else the `messages` of
the request payload and the state with the updates made so far applied. -/
def sendMessageBegin (st : AppState) : Option (List Msg × AppState) :=
  if trim st.input = [] ∨ st.isLoading = true then none
  else
    let userMessage : Msg := ⟨js "user", trim st.input⟩
    some (st.messages ++ [userMessage],
      { messages := st.messages ++ [userMessage], input := [], isLoading := true,
        isExpanded := false })

/-- `sendMessage` from the `await` on, applied to the state at the time the promise settles. -/
def sendMessageSettle (r : PostResult) (st : AppState) : AppState :=
  let reply : Msg :=
    match r with
    | PostResult.fulfilled content => ⟨js "assistant", content.getD (js "No response")⟩
    | PostResult.rejected => ⟨js "assistant", js "Error: failed to get response."⟩
  { st with messages := st.messages ++ [reply], isLoading := false }

/-- One whole run of `sendMessage` with no other event in between. -/
def sendMessage (st : AppState) (r : PostResult) : AppState :=
  match sendMessageBegin st with
  | none => st
  | some (_, st1) => sendMessageSettle r st1

example : withoutMarkers (js "a<think>b<think>c</think>d</think>e<think>") = js "ab<think>cd</think>e<think>" := by decide

example : sendMessage ⟨[], js " Hi\n", false, true⟩ .rejected = ⟨[userMsg (js "Hi"), assistantMsg (js "Error: failed to get response.")], [], false, false⟩ := by decide

/-! ## The regular expression: what a match is -/

theorem lazyBody_some_spec : ∀ (t : JsString) (n : Nat),
    lazyBody t = some n → closeMarker <+: t.drop n := by
  intro t
  induction t with
  | nil => intro n h; simp [lazyBody] at h
  | cons c cs ih =>
    intro n h
    unfold lazyBody at h
    split at h
    · rename_i hp
      cases h
      simpa using List.isPrefixOf_iff_prefix.mp hp
    · cases hb : lazyBody cs with
      | none => simp [hb] at h
      | some m =>
        simp only [hb, Option.map_some', Option.some.injEq] at h
        subst h
        simpa using ih m hb

theorem lazyBody_none_spec : ∀ (t : JsString), lazyBody t = none → ¬ closeMarker <:+: t := by
  intro t
  induction t with
  | nil => intro _ h; simp [closeMarker] at h
  | cons c cs ih =>
    intro h
    unfold lazyBody at h
    split at h
    · simp at h
    · rename_i hp
      rw [List.infix_cons_iff]
      rintro (hpre | hin)
      · exact hp (List.isPrefixOf_iff_prefix.mpr hpre)
      · refine ih ?_ hin
        cases hb : lazyBody cs with
        | none => rfl
        | some m => simp [hb] at h

theorem lazyBody_some_of_present (t : JsString) (h : closeMarker <:+: t) :
    ∃ n, lazyBody t = some n := by
  cases hb : lazyBody t with
  | none => exact absurd h (lazyBody_none_spec t hb)
  | some n => exact ⟨n, rfl⟩

theorem matchHere_some_spec (t g : JsString) (len : Nat) (h : matchHere t = some (g, len)) :
    (openMarker ++ g ++ closeMarker) <+: t ∧ len = 7 + g.length + 8 := by
  unfold matchHere at h
  split at h
  · rename_i hp
    have hpre := List.isPrefixOf_iff_prefix.mp hp
    cases hb : lazyBody (t.drop 7) with
    | none => simp [hb] at h
    | some n =>
      simp only [hb, Option.map_some', Option.some.injEq, Prod.mk.injEq] at h
      obtain ⟨hg, hlen⟩ := h
      have hc := lazyBody_some_spec _ _ hb
      obtain ⟨r, hr⟩ := hc
      obtain ⟨r0, hr0⟩ := hpre
      have h7 : t.drop 7 = r0 := by rw [← hr0]; simp [openMarker]
      have hsplit : t.drop 7 = g ++ (closeMarker ++ r) := by
        rw [hr, ← hg]
        exact (List.take_append_drop n (t.drop 7)).symm
      have hl2 := congrArg List.length hr
      simp only [List.length_append, List.length_drop, closeMarker, List.length_cons,
        List.length_nil] at hl2
      have hgl : g.length = n := by
        rw [← hg, List.length_take, List.length_drop]
        omega
      refine ⟨⟨r, ?_⟩, by omega⟩
      rw [← hr0, ← h7, hsplit]
      simp
  · simp at h

theorem matchHere_none_spec (t : JsString) (h : matchHere t = none) :
    ¬ (openMarker <+: t ∧ closeMarker <:+: t.drop 7) := by
  rintro ⟨hp, hc⟩
  obtain ⟨n, hn⟩ := lazyBody_some_of_present _ hc
  simp [matchHere, List.isPrefixOf_iff_prefix.mpr hp, hn] at h

theorem matchHere_some_inv (t g : JsString) (len : Nat) (h : matchHere t = some (g, len)) :
    openMarker <+: t ∧ ∃ n, lazyBody (t.drop 7) = some n ∧ g = (t.drop 7).take n ∧
      len = 7 + n + 8 := by
  unfold matchHere at h
  split at h
  · rename_i hp
    refine ⟨List.isPrefixOf_iff_prefix.mp hp, ?_⟩
    cases hb : lazyBody (t.drop 7) with
    | none => simp [hb] at h
    | some n =>
      simp only [hb, Option.map_some', Option.some.injEq, Prod.mk.injEq] at h
      exact ⟨n, rfl, h.1.symm, h.2.symm⟩
  · simp at h

theorem searchFrom_some_spec : ∀ (t : JsString) (off : Nat) (g : JsString) (len : Nat),
    searchFrom t = some (off, g, len) →
      (openMarker ++ g ++ closeMarker) <+: t.drop off ∧ len = 7 + g.length + 8 := by
  intro t
  induction t with
  | nil => intro off g len h; simp [searchFrom] at h
  | cons c cs ih =>
    intro off g len h
    unfold searchFrom at h
    cases hm : matchHere (c :: cs) with
    | some m =>
      obtain ⟨g0, len0⟩ := m
      simp only [hm, Option.some.injEq, Prod.mk.injEq] at h
      obtain ⟨rfl, rfl, rfl⟩ := h
      simpa using matchHere_some_spec _ _ _ hm
    | none =>
      simp only [hm] at h
      cases hs : searchFrom cs with
      | none => simp [hs] at h
      | some r =>
        obtain ⟨off0, g0, len0⟩ := r
        simp only [hs, Option.map_some', Option.some.injEq, Prod.mk.injEq] at h
        obtain ⟨rfl, rfl, rfl⟩ := h
        simpa using ih _ _ _ hs

theorem searchFrom_some_bounds (t : JsString) (off : Nat) (g : JsString) (len : Nat)
    (h : searchFrom t = some (off, g, len)) : off + len ≤ t.length ∧ 15 ≤ len := by
  obtain ⟨⟨r, hr⟩, hlen⟩ := searchFrom_some_spec t off g len h
  have hl := congrArg List.length hr
  simp only [List.length_append, List.length_drop, openMarker, closeMarker, List.length_cons,
    List.length_nil] at hl
  omega

theorem searchFrom_some_hasPair (t : JsString) (r : Nat × JsString × Nat)
    (h : searchFrom t = some r) : HasPair t := by
  obtain ⟨off, g, len⟩ := r
  obtain ⟨⟨r, hr⟩, _⟩ := searchFrom_some_spec t off g len h
  refine ⟨t.take off, g, r, ?_⟩
  have := List.take_append_drop off t
  rw [← hr] at this
  simpa [List.append_assoc] using this.symm

/-! ## Where a marker can occur in a concatenation -/

/-- A pattern whose first code unit does not recur in it, and which does not occur in `u`, is
not a prefix of `u` followed by that first code unit: it cannot begin in `u` and run over the
start of a following marker. -/
theorem not_prefix_of_straddle (h : Nat) (tl u v : JsString) (hh : h ∉ tl) (hu : u ≠ [])
    (hni : ¬ (h :: tl) <:+: u) : ¬ (h :: tl) <+: u ++ h :: v := by
  rintro ⟨r, hr⟩
  rcases List.append_eq_append_iff.mp hr with ⟨a', ha, _⟩ | ⟨c', hc, hd⟩
  · exact hni ⟨[], a', by simp [ha]⟩
  · cases c' with
    | nil =>
      refine hni ⟨[], [], ?_⟩
      simpa using hc
    | cons y ys =>
      cases u with
      | nil => exact hu rfl
      | cons x xs =>
        simp only [List.cons_append, List.cons.injEq] at hc hd
        apply hh
        rw [hc.2, hd.1]
        simp

theorem not_infix_of_cons {p : JsString} {c : Nat} {cs : JsString} (h : ¬ p <:+: c :: cs) :
    ¬ p <:+: cs :=
  fun hh => h (hh.trans (List.suffix_cons c cs).isInfix)

theorem lazyBody_append_cons (v : JsString) : ∀ (u : JsString), ¬ closeMarker <:+: u →
    lazyBody (u ++ 60 :: v) = (lazyBody (60 :: v)).map (fun n => n + u.length) := by
  intro u
  induction u with
  | nil => intro _; simp
  | cons c cs ih =>
    intro hni
    have hnp : ¬ closeMarker <+: (c :: cs) ++ 60 :: v :=
      not_prefix_of_straddle 60 _ (c :: cs) v (by decide) (by simp) hni
    have hnp2 : closeMarker.isPrefixOf (c :: (cs ++ 60 :: v)) = false := by
      cases hb : closeMarker.isPrefixOf (c :: (cs ++ 60 :: v)) with
      | false => rfl
      | true => exact absurd (List.isPrefixOf_iff_prefix.mp hb) hnp
    rw [List.cons_append, lazyBody, hnp2, ih (not_infix_of_cons hni)]
    cases lazyBody (60 :: v) <;> simp [Nat.add_assoc]

theorem lazyBody_close (r : JsString) : lazyBody (closeMarker ++ r) = some 0 := by
  simp [closeMarker, lazyBody, List.isPrefixOf]

theorem lazyBody_open (w : JsString) :
    lazyBody (openMarker ++ w) = (lazyBody w).map (fun n => n + 7) := by
  cases h : lazyBody w <;>
    simp [openMarker, closeMarker, List.cons_append, List.nil_append, lazyBody,
      List.isPrefixOf, h]

theorem lazyBody_append_close (u r : JsString) (hni : ¬ closeMarker <:+: u) :
    lazyBody (u ++ closeMarker ++ r) = some u.length := by
  have h := lazyBody_append_cons ([47, 116, 104, 105, 110, 107, 62] ++ r) u hni
  have hc : (60 :: ([47, 116, 104, 105, 110, 107, 62] ++ r)) = closeMarker ++ r := rfl
  rw [hc, lazyBody_close] at h
  rw [List.append_assoc, h]
  simp

theorem lazyBody_append_open (u w : JsString) (hni : ¬ closeMarker <:+: u) :
    lazyBody (u ++ openMarker ++ w) = (lazyBody w).map (fun n => n + (u.length + 7)) := by
  have h := lazyBody_append_cons ([116, 104, 105, 110, 107, 62] ++ w) u hni
  have hc : (60 :: ([116, 104, 105, 110, 107, 62] ++ w)) = openMarker ++ w := rfl
  rw [hc, lazyBody_open] at h
  rw [List.append_assoc, h]
  cases lazyBody w <;> simp [Nat.add_comm, Nat.add_left_comm]

theorem matchHere_open (w : JsString) :
    matchHere (openMarker ++ w) = (lazyBody w).map (fun n => (w.take n, 7 + n + 8)) := by
  have hp : openMarker.isPrefixOf (openMarker ++ w) = true :=
    List.isPrefixOf_iff_prefix.mpr (List.prefix_append _ _)
  have hd : (openMarker ++ w).drop 7 = w := by simp [openMarker]
  simp [matchHere, hp, hd]

theorem matchHere_of_not_prefix (t : JsString) (h : ¬ openMarker <+: t) : matchHere t = none := by
  have hp : openMarker.isPrefixOf t = false := by
    cases hb : openMarker.isPrefixOf t with
    | false => rfl
    | true => exact absurd (List.isPrefixOf_iff_prefix.mp hb) h
  simp [matchHere, hp]

theorem searchFrom_append_cons (v : JsString) : ∀ (u : JsString), ¬ openMarker <:+: u →
    searchFrom (u ++ 60 :: v) =
      (searchFrom (60 :: v)).map (fun r => (r.1 + u.length, r.2.1, r.2.2)) := by
  intro u
  induction u with
  | nil => intro _; simp
  | cons c cs ih =>
    intro hni
    have hnp : ¬ openMarker <+: (c :: cs) ++ 60 :: v :=
      not_prefix_of_straddle 60 _ (c :: cs) v (by decide) (by simp) hni
    rw [List.cons_append] at hnp
    rw [List.cons_append, searchFrom, matchHere_of_not_prefix _ hnp,
      ih (not_infix_of_cons hni)]
    cases searchFrom (60 :: v) <;> simp [Nat.add_assoc]

theorem searchFrom_none_of_absent : ∀ (t : JsString), ¬ openMarker <:+: t →
    searchFrom t = none := by
  intro t
  induction t with
  | nil => intro _; rfl
  | cons c cs ih =>
    intro hni
    have hnp : ¬ openMarker <+: c :: cs := fun hh => hni hh.isInfix
    rw [searchFrom, matchHere_of_not_prefix _ hnp, ih (not_infix_of_cons hni)]
    rfl

theorem searchFrom_open (w : JsString) (n : Nat) (hw : lazyBody w = some n) :
    searchFrom (openMarker ++ w) = some (0, w.take n, 7 + n + 8) := by
  have hm := matchHere_open w
  rw [hw] at hm
  have hc : openMarker ++ w = 60 :: ([116, 104, 105, 110, 107, 62] ++ w) := rfl
  rw [hc] at hm ⊢
  rw [searchFrom, hm]
  rfl

theorem searchFrom_append_open (u w : JsString) (n : Nat) (hni : ¬ openMarker <:+: u)
    (hw : lazyBody w = some n) :
    searchFrom (u ++ openMarker ++ w) = some (u.length, w.take n, 7 + n + 8) := by
  have h := searchFrom_append_cons ([116, 104, 105, 110, 107, 62] ++ w) u hni
  have hc : (60 :: ([116, 104, 105, 110, 107, 62] ++ w)) = openMarker ++ w := rfl
  rw [hc, searchFrom_open w n hw] at h
  rw [List.append_assoc, h]
  simp

theorem searchFrom_append_close (u : JsString) (hni : ¬ openMarker <:+: u) :
    searchFrom (u ++ closeMarker) = none := by
  have h := searchFrom_append_cons [47, 116, 104, 105, 110, 107, 62] u hni
  have hc : (60 :: [47, 116, 104, 105, 110, 107, 62]) = closeMarker := rfl
  have hn : searchFrom closeMarker = none := by decide
  rw [hc, hn] at h
  rw [h]
  rfl

/-! ## The specification's marker removal, along a match -/

theorem removeMarkers_nil (b : Bool) (k : Nat) : removeMarkers b k [] = [] := by
  cases b <;> cases k <;> rfl

theorem removeMarkers_skip : ∀ (k : Nat) (b : Bool) (t : JsString),
    removeMarkers b k t = removeMarkers b 0 (t.drop k) := by
  intro k
  induction k with
  | zero => intro b t; simp
  | succ k ih =>
    intro b t
    cases t with
    | nil => simp [removeMarkers_nil]
    | cons c cs =>
      have : removeMarkers b (k + 1) (c :: cs) = removeMarkers b k cs := by
        cases b <;> rfl
      rw [this, ih]
      simp

theorem removeMarkers_inside : ∀ (t : JsString) (n : Nat), lazyBody t = some n →
    removeMarkers true 0 t = t.take n ++ removeMarkers false 0 (t.drop (n + 8)) := by
  intro t
  induction t with
  | nil => intro n h; simp [lazyBody] at h
  | cons c cs ih =>
    intro n h
    unfold lazyBody at h
    split at h
    · rename_i hp
      cases h
      have hp2 := List.isPrefixOf_iff_prefix.mp hp
      rw [removeMarkers, if_pos hp2, removeMarkers_skip]
      simp
    · rename_i hp
      have hp2 : ¬ closeMarker <+: c :: cs := fun hh => hp (List.isPrefixOf_iff_prefix.mpr hh)
      cases hb : lazyBody cs with
      | none => simp [hb] at h
      | some m =>
        simp only [hb, Option.map_some', Option.some.injEq] at h
        subst h
        rw [removeMarkers, if_neg hp2, ih m hb]
        simp

theorem removeMarkers_search : ∀ (t : JsString),
    match searchFrom t with
    | none => removeMarkers false 0 t = t
    | some (off, g, len) =>
      removeMarkers false 0 t = t.take off ++ g ++ removeMarkers false 0 (t.drop (off + len)) := by
  intro t
  induction t with
  | nil => simp [searchFrom, removeMarkers]
  | cons c cs ih =>
    unfold searchFrom
    cases hm : matchHere (c :: cs) with
    | some m =>
      obtain ⟨g, len⟩ := m
      obtain ⟨hp, n, hn, hg, hlen⟩ := matchHere_some_inv _ _ _ hm
      have hc : closeMarker <:+: (c :: cs).drop 7 :=
        (lazyBody_some_spec _ _ hn).isInfix.trans (List.drop_suffix _ _).isInfix
      simp only
      rw [removeMarkers, if_pos ⟨hp, hc⟩, removeMarkers_skip]
      have h6 : cs.drop 6 = (c :: cs).drop 7 := by simp
      rw [h6, removeMarkers_inside _ _ hn, hg, hlen]
      simp [List.drop_drop, Nat.add_comm, Nat.add_left_comm]
    | none =>
      have hno := matchHere_none_spec _ hm
      cases hs : searchFrom cs with
      | none =>
        simp only [hs] at ih
        simp only [Option.map_none']
        rw [removeMarkers, if_neg hno, ih]
      | some r =>
        obtain ⟨off, g, len⟩ := r
        simp only [hs] at ih
        simp only [Option.map_some']
        rw [removeMarkers, if_neg hno, ih]
        simp [Nat.add_right_comm]

/-- A text with no delimiter pair has no marker to remove. -/
theorem withoutMarkers_of_no_pair (s : JsString) (h : ¬ HasPair s) : withoutMarkers s = s := by
  have hr := removeMarkers_search s
  cases hs : searchFrom s with
  | none => simpa [hs] using hr
  | some r => exact absurd (searchFrom_some_hasPair _ _ hs) h

/-- Removing the markers of `a` `<think>` `b` `</think>` `c` leaves `a` `b` `c`, when the
opening marker does not occur in `a` and `c` and the closing marker does not occur in `b`. -/
theorem withoutMarkers_one_pair (a b c : JsString) (ha : ¬ openMarker <:+: a)
    (hb : ¬ closeMarker <:+: b) (hc : ¬ openMarker <:+: c) :
    withoutMarkers (a ++ openMarker ++ b ++ closeMarker ++ c) = a ++ b ++ c := by
  have hsearch := searchFrom_append_open a (b ++ closeMarker ++ c) b.length ha
    (lazyBody_append_close b c hb)
  have hs : a ++ openMarker ++ b ++ closeMarker ++ c
      = a ++ openMarker ++ (b ++ closeMarker ++ c) := by simp [List.append_assoc]
  have hr := removeMarkers_search (a ++ openMarker ++ (b ++ closeMarker ++ c))
  simp only [hsearch] at hr
  have hd : (a ++ openMarker ++ (b ++ closeMarker ++ c)).drop (a.length + (7 + b.length + 8))
      = c := by
    rw [← hs]
    exact List.drop_left' (by simp [openMarker, closeMarker]; omega)
  have hc2 : removeMarkers false 0 c = c := by
    have := removeMarkers_search c
    simpa [searchFrom_none_of_absent c hc] using this
  rw [withoutMarkers, hs, hr, hd, hc2]
  simp [List.append_assoc]

/-! ## The loop of `Message`: termination and invariants -/

/-- Total correctness of the loop: with more fuel than code units left after `lastIndex` it
ends, at an offset from which the pattern matches no more, and every invariant of its
iterations holds at the end. -/
theorem whileLoop_total (i : Nat) (s : JsString) (Inv : Nat → List Part → Prop)
    (hstep : ∀ (L : Nat) (P : List Part) (off : Nat) (g : JsString) (len : Nat),
      Inv L P → L ≤ s.length → searchFrom (s.drop L) = some (off, g, len) →
      Inv (L + off + len)
        ((if 0 < off then P ++ [⟨PartType.text, (s.drop L).take off, none⟩] else P) ++
          [⟨PartType.think, g, some (thoughtId i L)⟩])) :
    ∀ (fuel L : Nat) (P : List Part), L ≤ s.length → s.length - L < fuel → Inv L P →
      ∃ L' P', whileLoop i s fuel L P = some (L', P') ∧ Inv L' P' ∧ L' ≤ s.length ∧
        searchFrom (s.drop L') = none := by
  intro fuel
  induction fuel with
  | zero => intro L P _ h; omega
  | succ fuel ih =>
    intro L P hL hfuel hinv
    unfold whileLoop
    cases hs : searchFrom (s.drop L) with
    | none =>
      have he : exec s L = none := by simp [exec, hs]
      simp only [he]
      exact ⟨L, P, rfl, hinv, hL, hs⟩
    | some r =>
      obtain ⟨off, g, len⟩ := r
      have he : exec s L = some ⟨L + off, g, L + off + len⟩ := by
        simp [exec, hs, Nat.not_lt.mpr hL]
      obtain ⟨hb1, hb2⟩ := searchFrom_some_bounds _ _ _ _ hs
      rw [List.length_drop] at hb1
      simp only [he]
      have hsl : slice s L (L + off) = (s.drop L).take off := by simp [slice]
      have hif : (if L + off > L then
            P ++ [(⟨PartType.text, (s.drop L).take off, none⟩ : Part)] else P) =
          (if 0 < off then P ++ [⟨PartType.text, (s.drop L).take off, none⟩] else P) := by
        by_cases h : 0 < off <;> simp [h]
      rw [hsl, hif]
      exact ih (L + off + len) _ (by omega) (by omega) (hstep L P off g len hinv hL hs)

theorem assistant_ne_user : js "assistant" ≠ js "user" := by decide

/-- The parts of a message whose role is not `user`: the loop ends, with any invariant of its
iterations established, and the rest of the content is appended as text when it is not empty. -/
theorem messageParts_of_not_user (i : Nat) (msg : Msg) (hrole : msg.role ≠ js "user")
    (Inv : Nat → List Part → Prop) (h0 : Inv 0 [])
    (hstep : ∀ (L : Nat) (P : List Part) (off : Nat) (g : JsString) (len : Nat),
      Inv L P → L ≤ msg.content.length → searchFrom (msg.content.drop L) = some (off, g, len) →
      Inv (L + off + len)
        ((if 0 < off then P ++ [⟨PartType.text, (msg.content.drop L).take off, none⟩] else P) ++
          [⟨PartType.think, g, some (thoughtId i L)⟩])) :
    ∃ L' P', messageParts msg i =
        some (if L' < msg.content.length then P' ++ [⟨PartType.text, msg.content.drop L', none⟩]
          else P') ∧
      Inv L' P' ∧ L' ≤ msg.content.length ∧ searchFrom (msg.content.drop L') = none := by
  obtain ⟨L', P', hw, hinv, hle, hs⟩ :=
    whileLoop_total i msg.content Inv hstep (msg.content.length + 1) 0 [] (Nat.zero_le _)
      (by omega) h0
  refine ⟨L', P', ?_, hinv, hle, hs⟩
  simp [messageParts, hrole, hw, sliceFrom]

/-- The parts of an assistant message, as `messageParts_of_not_user`. -/
theorem messageParts_assistant (i : Nat) (s : JsString) (Inv : Nat → List Part → Prop)
    (h0 : Inv 0 [])
    (hstep : ∀ (L : Nat) (P : List Part) (off : Nat) (g : JsString) (len : Nat),
      Inv L P → L ≤ s.length → searchFrom (s.drop L) = some (off, g, len) →
      Inv (L + off + len)
        ((if 0 < off then P ++ [⟨PartType.text, (s.drop L).take off, none⟩] else P) ++
          [⟨PartType.think, g, some (thoughtId i L)⟩])) :
    ∃ L' P', messageParts (assistantMsg s) i =
        some (if L' < s.length then P' ++ [⟨PartType.text, s.drop L', none⟩] else P') ∧
      Inv L' P' ∧ L' ≤ s.length ∧ searchFrom (s.drop L') = none :=
  messageParts_of_not_user i (assistantMsg s) assistant_ne_user Inv h0 hstep

/-- `Message` always builds its parts: the fuel given to the loop is enough. -/
theorem messageParts_isSome (msg : Msg) (i : Nat) : ∃ parts, messageParts msg i = some parts := by
  by_cases hrole : msg.role = js "user"
  · exact ⟨[⟨PartType.text, msg.content, none⟩], by simp [messageParts, hrole]⟩
  · obtain ⟨L', P', h, _⟩ := messageParts_of_not_user i msg hrole (fun _ _ => True) trivial
      (fun _ _ _ _ _ _ _ _ => trivial)
    exact ⟨_, h⟩

theorem whileLoop_succ_none (i : Nat) (s : JsString) (fuel L : Nat) (P : List Part)
    (h : exec s L = none) : whileLoop i s (fuel + 1) L P = some (L, P) := by
  simp [whileLoop, h]

theorem whileLoop_succ_some (i : Nat) (s : JsString) (fuel L : Nat) (P : List Part)
    (m : ExecResult) (h : exec s L = some m) :
    whileLoop i s (fuel + 1) L P =
      whileLoop i s fuel m.lastIndex
        ((if m.index > L then P ++ [⟨PartType.text, slice s L m.index, none⟩] else P) ++
          [⟨PartType.think, m.group1, some (thoughtId i L)⟩]) := by
  simp [whileLoop, h]

/-- The contents of the parts, concatenated in order. -/
theorem contents_append (P Q : List Part) :
    ((P ++ Q).map (fun p => p.content)).flatten =
      (P.map (fun p => p.content)).flatten ++ (Q.map (fun p => p.content)).flatten := by
  simp

/-- C1. For every assistant message text, `Message` builds its parts, and the contents of the
parts concatenated in order, text and think parts alike, are the input text with the markers
`<think>` and `</think>` of every matched pair deleted and nothing else dropped or added. -/
theorem parts_concat_eq_withoutMarkers (content : JsString) (messageIndex : Nat) :
    ∃ parts, messageParts (assistantMsg content) messageIndex = some parts ∧
      (parts.map (fun p => p.content)).flatten = withoutMarkers content := by
  obtain ⟨L', P', hm, hinv, hle, hs⟩ := messageParts_assistant messageIndex content
    (fun L P => (P.map (fun p => p.content)).flatten ++ removeMarkers false 0 (content.drop L)
      = withoutMarkers content)
    (by simp [withoutMarkers])
    (by
      intro L P off g len hinv hL hs
      have hr := removeMarkers_search (content.drop L)
      simp only [hs] at hr
      rw [← hinv, hr]
      by_cases hoff : 0 < off
      · simp [hoff, List.drop_drop, Nat.add_assoc, Nat.add_comm, Nat.add_left_comm]
      · have h0 : off = 0 := by omega
        subst h0
        simp [List.drop_drop, Nat.add_comm])
  refine ⟨_, hm, ?_⟩
  have hr := removeMarkers_search (content.drop L')
  simp only [hs] at hr
  rw [hr] at hinv
  rw [← hinv]
  by_cases hlt : L' < content.length
  · simp [hlt]
  · have : content.drop L' = [] := List.drop_eq_nil_of_le (by omega)
    simp [hlt, this]

/-- C2, as the code has it. For every assistant message text with no delimiter pair, `Message`
builds exactly one part, of type text, whose content is the input, when the text is not empty,
and no part at all when the text is empty. -/
theorem parts_of_no_pair (content : JsString) (messageIndex : Nat) (h : ¬ HasPair content) :
    messageParts (assistantMsg content) messageIndex =
      some (if content = [] then [] else [⟨PartType.text, content, none⟩]) := by
  have hs : searchFrom content = none := by
    cases hs : searchFrom content with
    | none => rfl
    | some r => exact absurd (searchFrom_some_hasPair _ _ hs) h
  have he : exec content 0 = none := by simp [exec, hs]
  have hrole : decide (js "assistant" = js "user") = false := by decide
  simp only [messageParts, assistantMsg, hrole, whileLoop_succ_none _ _ _ _ _ he]
  cases content with
  | nil => simp
  | cons c cs => simp [sliceFrom]

/-- The text `plain text` has no delimiter pair and gives one text part. -/
theorem parts_of_no_pair_witness :
    ¬ HasPair (js "plain text") ∧
      messageParts (assistantMsg (js "plain text")) 3 =
        some [⟨PartType.text, js "plain text", none⟩] := by
  have h : ¬ HasPair (js "plain text") := by
    rintro ⟨pre, mid, post, hp⟩
    have : openMarker <:+: js "plain text" := ⟨pre, mid ++ closeMarker ++ post, by
      rw [hp]; simp [List.append_assoc]⟩
    revert this
    decide
  exact ⟨h, parts_of_no_pair (js "plain text") 3 h⟩

/-- C2 fails at the empty text: it has no delimiter pair, and `Message` builds no part for it
rather than one empty text part. -/
theorem parts_of_empty_text :
    ¬ HasPair (js "") ∧ messageParts (assistantMsg (js "")) 0 = some [] ∧
      messageParts (assistantMsg (js "")) 0 ≠ some [⟨PartType.text, js "", none⟩] := by
  refine ⟨?_, by decide, by decide⟩
  rintro ⟨pre, mid, post, hp⟩
  have hl := congrArg List.length hp
  simp [js, openMarker] at hl
  omega

/-- C4. For every message whose role is `user` and every content, `Message` builds exactly one
part, of type text, whose content is the message content unchanged. -/
theorem parts_of_user_message (content : JsString) (messageIndex : Nat) :
    messageParts (userMsg content) messageIndex = some [⟨PartType.text, content, none⟩] := by
  simp [messageParts, userMsg]

theorem exec_zero (s : JsString) :
    exec s 0 = (searchFrom s).map (fun r => ⟨r.1, r.2.1, r.1 + r.2.2⟩) := by
  simp [exec]

theorem exec_none_of_drop (s : JsString) (L : Nat) (h : searchFrom (s.drop L) = none) :
    exec s L = none := by
  simp [exec, h]

/-- C3. For all texts `a`, `b`, `c` in which neither marker occurs, the parts of the assistant
text `a` `<think>` `b` `</think>` `c` are, in this order and with nothing else: a text part with
content `a` if `a` is not empty, a think part with content `b`, also when `b` is empty, and a
text part with content `c` if `c` is not empty. -/
theorem parts_of_one_pair (a b c : JsString) (messageIndex : Nat)
    (_ha1 : ¬ closeMarker <:+: a) (ha2 : ¬ openMarker <:+: a)
    (_hb1 : ¬ openMarker <:+: b) (hb2 : ¬ closeMarker <:+: b)
    (hc1 : ¬ openMarker <:+: c) (_hc2 : ¬ closeMarker <:+: c) :
    messageParts (assistantMsg (a ++ openMarker ++ b ++ closeMarker ++ c)) messageIndex =
      some ((if a = [] then [] else [⟨PartType.text, a, none⟩]) ++
        [⟨PartType.think, b, some (thoughtId messageIndex 0)⟩] ++
        (if c = [] then [] else [⟨PartType.text, c, none⟩])) := by
  have hlazy : lazyBody (b ++ closeMarker ++ c) = some b.length :=
    lazyBody_append_close b c hb2
  have hsearch := searchFrom_append_open a (b ++ closeMarker ++ c) b.length ha2 hlazy
  have htake : (b ++ closeMarker ++ c).take b.length = b := by simp
  have hs : a ++ openMarker ++ b ++ closeMarker ++ c
      = a ++ openMarker ++ (b ++ closeMarker ++ c) := by simp [List.append_assoc]
  rw [htake, ← hs] at hsearch
  generalize hS : a ++ openMarker ++ b ++ closeMarker ++ c = s at hsearch
  have hlen : s.length = a.length + 7 + b.length + 8 + c.length := by
    rw [← hS]; simp [openMarker, closeMarker]; omega
  have he1 : exec s 0 = some ⟨a.length, b, a.length + (7 + b.length + 8)⟩ := by
    rw [exec_zero, hsearch]; rfl
  have hdrop : s.drop (a.length + (7 + b.length + 8)) = c := by
    rw [← hS]
    exact List.drop_left' (by simp [openMarker, closeMarker]; omega)
  have he2 : exec s (a.length + (7 + b.length + 8)) = none :=
    exec_none_of_drop _ _ (by rw [hdrop]; exact searchFrom_none_of_absent c hc1)
  obtain ⟨k, hk⟩ : ∃ k, s.length + 1 = k + 2 := ⟨s.length - 1, by omega⟩
  have hrole : decide (js "assistant" = js "user") = false := by decide
  have hsl : slice s 0 a.length = a := by
    rw [← hS]; simp [slice, List.append_assoc]
  have h1 : (a.length + (7 + b.length + 8) < s.length) ↔ c ≠ [] := by
    rw [hlen, ← List.length_pos]; omega
  have h0 : (a.length > 0) ↔ a ≠ [] := List.length_pos
  simp only [messageParts, assistantMsg, hrole, hk, whileLoop_succ_some _ _ _ _ _ _ he1,
    whileLoop_succ_none _ _ _ _ _ he2, Option.map_some', Bool.not_false, if_true, sliceFrom,
    hdrop, hsl, h1, h0]
  by_cases ha : a = [] <;> by_cases hc : c = [] <;> simp [ha, hc]

/-- The text `before<think>plan</think>after` gives a text part `before`, a think part `plan`
and a text part `after`. -/
theorem parts_of_one_pair_witness :
    messageParts (assistantMsg (js "before<think>plan</think>after")) 0 =
      some [⟨PartType.text, js "before", none⟩, ⟨PartType.think, js "plan", some (js "0-0")⟩,
        ⟨PartType.text, js "after", none⟩] :=
  parts_of_one_pair (js "before") (js "plan") (js "after") 0
    (by decide) (by decide) (by decide) (by decide) (by decide) (by decide)

/-- C9, as the code has it. For all texts `x`, `y`, `z` in which neither marker occurs, the
parts of the assistant text `<think>` `x` `<think>` `y` `</think>` `z` `</think>` are one think
part, whose content is `x` `<think>` `y` and so holds the inner opening marker as literal text
and ends at the first closing marker, and after it one text part with content `z` `</think>`:
the inner pair gets no part of its own. -/
theorem parts_of_nested_pair (x y z : JsString) (messageIndex : Nat)
    (_hx1 : ¬ openMarker <:+: x) (hx2 : ¬ closeMarker <:+: x)
    (_hy1 : ¬ openMarker <:+: y) (hy2 : ¬ closeMarker <:+: y)
    (hz1 : ¬ openMarker <:+: z) (_hz2 : ¬ closeMarker <:+: z) :
    messageParts
        (assistantMsg (openMarker ++ x ++ openMarker ++ y ++ closeMarker ++ z ++ closeMarker))
        messageIndex =
      some [⟨PartType.think, x ++ openMarker ++ y, some (thoughtId messageIndex 0)⟩,
        ⟨PartType.text, z ++ closeMarker, none⟩] := by
  have hl1 : lazyBody (y ++ closeMarker ++ (z ++ closeMarker)) = some y.length :=
    lazyBody_append_close y _ hy2
  have hl2 := lazyBody_append_open x (y ++ closeMarker ++ (z ++ closeMarker)) hx2
  rw [hl1] at hl2
  have hsearch := searchFrom_open _ _ hl2
  have htake : (x ++ openMarker ++ (y ++ closeMarker ++ (z ++ closeMarker))).take
      (y.length + (x.length + 7)) = x ++ openMarker ++ y := by
    have : x ++ openMarker ++ (y ++ closeMarker ++ (z ++ closeMarker))
        = (x ++ openMarker ++ y) ++ (closeMarker ++ (z ++ closeMarker)) := by
      simp [List.append_assoc]
    rw [this]
    exact List.take_left' (by simp [openMarker]; omega)
  have hs : openMarker ++ x ++ openMarker ++ y ++ closeMarker ++ z ++ closeMarker
      = openMarker ++ (x ++ openMarker ++ (y ++ closeMarker ++ (z ++ closeMarker))) := by
    simp [List.append_assoc]
  rw [htake, ← hs] at hsearch
  generalize hS : openMarker ++ x ++ openMarker ++ y ++ closeMarker ++ z ++ closeMarker = s
    at hsearch
  have hlen : s.length = 7 + x.length + 7 + y.length + 8 + z.length + 8 := by
    rw [← hS]; simp [openMarker, closeMarker]; omega
  have he1 : exec s 0 = some ⟨0, x ++ openMarker ++ y,
      0 + (7 + (y.length + (x.length + 7)) + 8)⟩ := by
    rw [exec_zero, hsearch]; rfl
  have hdrop : s.drop (0 + (7 + (y.length + (x.length + 7)) + 8)) = z ++ closeMarker := by
    rw [← hS]
    have : openMarker ++ x ++ openMarker ++ y ++ closeMarker ++ z ++ closeMarker
        = (openMarker ++ x ++ openMarker ++ y ++ closeMarker) ++ (z ++ closeMarker) := by
      simp [List.append_assoc]
    rw [this]
    exact List.drop_left' (by simp [openMarker, closeMarker]; omega)
  have he2 : exec s (0 + (7 + (y.length + (x.length + 7)) + 8)) = none :=
    exec_none_of_drop _ _ (by rw [hdrop]; exact searchFrom_append_close z hz1)
  obtain ⟨k, hk⟩ : ∃ k, s.length + 1 = k + 2 := ⟨s.length - 1, by omega⟩
  have hrole : decide (js "assistant" = js "user") = false := by decide
  have h1 : 0 + (7 + (y.length + (x.length + 7)) + 8) < s.length := by omega
  have h0 : ¬ ((0 : Nat) > 0) := by omega
  simp only [messageParts, assistantMsg, hrole, hk, whileLoop_succ_some _ _ _ _ _ _ he1,
    whileLoop_succ_none _ _ _ _ _ he2, Option.map_some', Bool.not_false, if_true, sliceFrom,
    hdrop, h1, h0, if_false, List.nil_append, List.cons_append]

/-- The text `<think>a<think>b</think>c</think>` gives a think part `a<think>b` and a text part
`c</think>`. -/
theorem parts_of_nested_pair_witness :
    messageParts (assistantMsg (js "<think>a<think>b</think>c</think>")) 2 =
      some [⟨PartType.think, js "a<think>b", some (thoughtId 2 0)⟩,
        ⟨PartType.text, js "c</think>", none⟩] :=
  parts_of_nested_pair (js "a") (js "b") (js "c") 2
    (by decide) (by decide) (by decide) (by decide) (by decide) (by decide)

/-- C9 fails at `<think>a<think>b</think>c</think>`: neither marker occurs in `a`, `b` or `c`,
and the inner pair `<think>b</think>` is not inside the content of the think part, nor of any
part: the think part ends at the inner closing marker. -/
theorem nested_pair_not_in_thought :
    messageParts (assistantMsg (js "<think>a<think>b</think>c</think>")) 0 =
      some [⟨PartType.think, js "a<think>b", some (js "0-0")⟩,
        ⟨PartType.text, js "c</think>", none⟩] ∧
    ¬ js "<think>b</think>" <:+: js "a<think>b" ∧
    ¬ js "<think>b</think>" <:+: js "c</think>" := by
  refine ⟨by decide, by decide, by decide⟩

/-! ## Sidebar.js: clicks and hovers -/

/-- C5. The label reported for the initial state is `hidden`; a hamburger click in a state
reported as `hidden` gives one reported as `visible`, a click in `visible` gives `pinned` with
`isVisible` true, a click in `pinned` gives `hidden`; three clicks from the initial state lead
back to it. -/
theorem click_cycle :
    Sidebar.reported Sidebar.initial = js "hidden" ∧
    (∀ s : SidebarState,
      if Sidebar.reported s = js "hidden" then
        Sidebar.reported (Sidebar.handleHamburgerClick s) = js "visible"
      else if Sidebar.reported s = js "visible" then
        Sidebar.reported (Sidebar.handleHamburgerClick s) = js "pinned" ∧
          (Sidebar.handleHamburgerClick s).isVisible = true
      else
        Sidebar.reported s = js "pinned" ∧
          Sidebar.reported (Sidebar.handleHamburgerClick s) = js "hidden") ∧
    Sidebar.reported (Sidebar.run [Sidebar.Event.click]) = js "visible" ∧
    Sidebar.reported (Sidebar.run [Sidebar.Event.click, Sidebar.Event.click]) = js "pinned" ∧
    Sidebar.run [Sidebar.Event.click, Sidebar.Event.click, Sidebar.Event.click]
      = Sidebar.initial := by
  refine ⟨by decide, ?_, by decide, by decide, by decide⟩
  rintro ⟨_ | _, _ | _⟩ <;> decide

/-- C6. In every state reached from the initial state by clicks and hovers: while the state is
pinned, hover-enter and hover-leave leave the state as it is, and so `isPinned`, `isVisible` and
the reported label; while it is not pinned, hover-enter gives a state reported as `visible` and
hover-leave one reported as `hidden`. -/
theorem hover_transitions (events : List Sidebar.Event) :
    if (Sidebar.run events).isPinned = true then
      Sidebar.reported (Sidebar.run events) = js "pinned" ∧
      Sidebar.handleMouseEnter (Sidebar.run events) = Sidebar.run events ∧
      Sidebar.handleMouseLeave (Sidebar.run events) = Sidebar.run events
    else
      Sidebar.reported (Sidebar.run events) ≠ js "pinned" ∧
      Sidebar.reported (Sidebar.handleMouseEnter (Sidebar.run events)) = js "visible" ∧
      Sidebar.reported (Sidebar.handleMouseLeave (Sidebar.run events)) = js "hidden" := by
  generalize Sidebar.run events = s
  rcases s with ⟨_ | _, _ | _⟩ <;> decide

/-! ## App.js: a failed request -/

/-- C7. For every prior transcript and every input whose trimmed text `u` is not empty, when
`sendMessage` runs while `isLoading` is false and the request is rejected, the transcript
afterwards is the prior one followed by exactly the user message with content `u` and the
assistant message `Error: failed to get response.`, and `isLoading` is false. -/
theorem sendMessage_rejected (st : AppState) (hu : trim st.input ≠ [])
    (hl : st.isLoading = false) :
    (sendMessage st PostResult.rejected).messages =
      st.messages ++ [⟨js "user", trim st.input⟩,
        ⟨js "assistant", js "Error: failed to get response."⟩] ∧
    (sendMessage st PostResult.rejected).isLoading = false := by
  simp [sendMessage, sendMessageBegin, sendMessageSettle, hu, hl]

/-- With an empty transcript and the input `Hi`, a rejected request leaves the user message
`Hi` and the error message, and `isLoading` false. -/
theorem sendMessage_rejected_witness :
    (sendMessage ⟨[], js "Hi", false, false⟩ PostResult.rejected).messages =
      [⟨js "user", js "Hi"⟩, ⟨js "assistant", js "Error: failed to get response."⟩] ∧
    (sendMessage ⟨[], js "Hi", false, false⟩ PostResult.rejected).isLoading = false :=
  sendMessage_rejected ⟨[], js "Hi", false, false⟩ (by decide) rfl

/-! ## Thought identifiers -/

theorem numberToString_leftInverse (n : Nat) :
    Nat.ofDigits 10 (((numberToString n).map (fun c => c - 48)).reverse) = n := by
  unfold numberToString
  split
  · rename_i h
    subst h
    simp
  · have hcomp : ((fun c : Nat => c - 48) ∘ fun d => 48 + d) = id := by
      funext d
      simp
    simp [List.map_map, hcomp, Nat.ofDigits_digits]

theorem numberToString_injective : Function.Injective numberToString := by
  intro n m h
  rw [← numberToString_leftInverse n, ← numberToString_leftInverse m, h]

theorem dash_not_mem_numberToString (n : Nat) : 45 ∉ numberToString n := by
  unfold numberToString
  split
  · simp
  · simp only [List.mem_map, List.mem_reverse, not_exists, not_and]
    intro d _ hd
    omega

theorem thoughtId_injective (i o i' o' : Nat) (h : thoughtId i o = thoughtId i' o') :
    i = i' ∧ o = o' := by
  unfold thoughtId at h
  simp only [List.append_assoc, List.singleton_append] at h
  have := (List.append_cons_inj_of_not_mem (dash_not_mem_numberToString i)
    (dash_not_mem_numberToString o)).mp h
  exact ⟨numberToString_injective this.1, numberToString_injective this.2.2⟩

theorem thinkIds_append (P Q : List Part) : thinkIds (P ++ Q) = thinkIds P ++ thinkIds Q := by
  simp [thinkIds]

theorem thinkIds_text (c : JsString) (x : Option JsString) :
    thinkIds [⟨PartType.text, c, x⟩] = [] := by
  simp [thinkIds]

theorem thinkIds_think (c : JsString) (x : Option JsString) :
    thinkIds [⟨PartType.think, c, x⟩] = [x] := by
  simp [thinkIds]

/-- The identifiers of the think parts of one message are made from the message index and
offsets that differ from one think part to the next. -/
theorem message_thinkIds (msg : Msg) (i : Nat) :
    ∃ (parts : List Part) (offs : List Nat), messageParts msg i = some parts ∧
      thinkIds parts = offs.map (fun o => some (thoughtId i o)) ∧ offs.Nodup := by
  by_cases hrole : msg.role = js "user"
  · exact ⟨[⟨PartType.text, msg.content, none⟩], [], by simp [messageParts, hrole],
      by simp [thinkIds], List.nodup_nil⟩
  · obtain ⟨L', P', hm, ⟨offs, hids, hpw, _⟩, _, _⟩ := messageParts_of_not_user i msg hrole
      (fun L P => ∃ offs : List Nat, thinkIds P = offs.map (fun o => some (thoughtId i o)) ∧
        offs.Pairwise (fun a b => a < b) ∧ ∀ o ∈ offs, o < L)
      ⟨[], by simp [thinkIds], List.Pairwise.nil, by simp⟩
      (by
        rintro L P off g len ⟨offs, hids, hpw, hlt2⟩ hL hs
        obtain ⟨_, hlen⟩ := searchFrom_some_bounds _ _ _ _ hs
        refine ⟨offs ++ [L], ?_, ?_, ?_⟩
        · by_cases hoff : 0 < off
          · simp only [if_pos hoff, thinkIds_append, thinkIds_text, thinkIds_think, hids,
              List.map_append, List.map_cons, List.map_nil, List.append_nil]
          · simp only [if_neg hoff, thinkIds_append, thinkIds_think, hids,
              List.map_append, List.map_cons, List.map_nil]
        · rw [List.pairwise_append]
          refine ⟨hpw, List.pairwise_singleton _ _, ?_⟩
          intro a ha b hb
          simp only [List.mem_singleton] at hb
          subst hb
          exact hlt2 a ha
        · intro o ho
          simp only [List.mem_append, List.mem_singleton] at ho
          rcases ho with ho | ho
          · have := hlt2 o ho
            omega
          · omega)
    refine ⟨_, offs, hm, ?_, ?_⟩
    · by_cases hlt : L' < msg.content.length
      · simp [hlt, thinkIds_append, thinkIds_text, hids]
      · simp [hlt, hids]
    · exact hpw.imp (fun h => Nat.ne_of_lt h)

/-- The identifiers of the think parts of a transcript rendered from index `idx` on are made
from pairwise different pairs of a message index and an offset. -/
theorem renderFrom_thinkIds : ∀ (msgs : List Msg) (idx : Nat),
    ∃ (pss : List (List Part)) (pairs : List (Nat × Nat)), renderFrom idx msgs = some pss ∧
      thinkIds pss.flatten = pairs.map (fun p : Nat × Nat => some (thoughtId p.1 p.2)) ∧
      pairs.Nodup ∧ ∀ p ∈ pairs, idx ≤ p.1 := by
  intro msgs
  induction msgs with
  | nil => intro idx; exact ⟨[], [], rfl, by simp [thinkIds], List.nodup_nil, by simp⟩
  | cons msg rest ih =>
    intro idx
    obtain ⟨parts, offs, hm, hids, hnd⟩ := message_thinkIds msg idx
    obtain ⟨pss, pairs, hr, hids2, hnd2, hge⟩ := ih (idx + 1)
    refine ⟨parts :: pss, offs.map (fun o => (idx, o)) ++ pairs, ?_, ?_, ?_, ?_⟩
    · simp [renderFrom, hm, hr]
    · simp [thinkIds_append, hids, hids2, List.map_map, Function.comp]
    · rw [List.nodup_append]
      refine ⟨hnd.map (fun a b h => (Prod.mk.inj h).2), hnd2, ?_⟩
      intro p hp1 hp2
      simp only [List.mem_map] at hp1
      obtain ⟨o, _, rfl⟩ := hp1
      have := hge _ hp2
      simp at this
    · intro p hp
      simp only [List.mem_append, List.mem_map] at hp
      rcases hp with ⟨o, _, rfl⟩ | hp
      · exact Nat.le_refl _
      · exact Nat.le_of_succ_le (hge p hp)

/-- C10. For every transcript, `App` renders every message into parts, and the identifiers of
all the think parts, of all messages together, are pairwise different: two think parts of one
message, or think parts of messages at different indices, never share an identifier. -/
theorem thought_ids_unique (messages : List Msg) :
    ∃ pss, renderAll messages = some pss ∧ (thinkIds pss.flatten).Nodup := by
  obtain ⟨pss, pairs, hr, hids, hnd, _⟩ := renderFrom_thinkIds messages 0
  refine ⟨pss, hr, ?_⟩
  rw [hids]
  refine hnd.map ?_
  rintro ⟨i, o⟩ ⟨i', o'⟩ h
  simp only [Option.some.injEq] at h
  obtain ⟨h1, h2⟩ := thoughtId_injective _ _ _ _ h
  simp [h1, h2]

theorem thoughtIdsAt_nil (i : Nat) (s : JsString) : ThoughtIdsAt i s [] := by
  intro before p after h
  simp at h

theorem thoughtIdsAt_concat (i : Nat) (s : JsString) (P : List Part) (q : Part)
    (hP : ThoughtIdsAt i s P)
    (hq : q.type = PartType.think →
      (openMarker ++ q.content ++ closeMarker) <+: s.drop ((P.map sourceLength).sum) ∧
      q.id = some (thoughtId i ((P.map sourceLength).sum - trailingTextLength P))) :
    ThoughtIdsAt i s (P ++ [q]) := by
  intro before p after h hthink
  rcases List.eq_nil_or_concat after with rfl | ⟨after', b, rfl⟩
  · obtain ⟨h1, h2⟩ := List.append_inj' h rfl
    simp only [List.cons.injEq, and_true] at h2
    subst h1 h2
    exact hq hthink
  · have h' : P ++ [q] = (before ++ p :: after') ++ [b] := by
      rw [h]; simp
    obtain ⟨h1, _⟩ := List.append_inj' h' rfl
    exact hP before p after' h1 hthink

theorem trailingTextLength_concat (P : List Part) (q : Part) :
    trailingTextLength (P ++ [q]) = if q.type = PartType.text then q.content.length else 0 := by
  simp [trailingTextLength]

/-- Every think part of an assistant message carries the identifier made from the message index
and the value of `lastIndex` at its match. -/
theorem messageParts_thoughtIdsAt (content : JsString) (i : Nat) :
    ∃ parts, messageParts (assistantMsg content) i = some parts ∧
      ThoughtIdsAt i content parts := by
  obtain ⟨L', P', hm, ⟨_, _, hgood⟩, _, _⟩ := messageParts_assistant i content
    (fun L P => (P.map sourceLength).sum = L ∧ trailingTextLength P = 0 ∧
      ThoughtIdsAt i content P)
    ⟨by simp, by simp [trailingTextLength], thoughtIdsAt_nil i content⟩
    (by
      rintro L P off g len ⟨hsum, htr, hgood⟩ hL hs
      obtain ⟨hpre, hlen⟩ := searchFrom_some_spec _ _ _ _ hs
      obtain ⟨hb, _⟩ := searchFrom_some_bounds _ _ _ _ hs
      rw [List.drop_drop] at hpre
      have h1 : ∃ P1 : List Part,
          (if 0 < off then P ++ [⟨PartType.text, (content.drop L).take off, none⟩] else P) = P1 ∧
          (P1.map sourceLength).sum = L + off ∧ trailingTextLength P1 = off ∧
          ThoughtIdsAt i content P1 := by
        by_cases hoff : 0 < off
        · refine ⟨_, if_pos hoff, ?_, ?_, ?_⟩
          · simp only [List.map_append, List.sum_append, hsum, List.map_cons, List.map_nil,
              List.sum_cons, List.sum_nil, sourceLength, List.length_take]
            omega
          · rw [trailingTextLength_concat]
            simp only [if_true, List.length_take]
            omega
          · exact thoughtIdsAt_concat i content P _ hgood (by simp)
        · have h0 : off = 0 := by omega
          refine ⟨P, if_neg hoff, ?_, ?_, hgood⟩
          · omega
          · omega
      obtain ⟨P1, hP1, hsum1, htr1, hgood1⟩ := h1
      rw [hP1]
      refine ⟨?_, ?_, ?_⟩
      · simp only [List.map_append, List.sum_append, hsum1, List.map_cons, List.map_nil,
          List.sum_cons, List.sum_nil, sourceLength]
        omega
      · rw [trailingTextLength_concat]
        simp
      · refine thoughtIdsAt_concat i content P1 _ hgood1 (fun _ => ?_)
        rw [hsum1, htr1]
        refine ⟨hpre, ?_⟩
        simp)
  refine ⟨_, hm, ?_⟩
  by_cases hlt : L' < content.length
  · rw [if_pos hlt]
    exact thoughtIdsAt_concat i content P' _ hgood (by simp)
  · rw [if_neg hlt]
    exact hgood

/-- C8, as the code has it. For every assistant message rendered at index `messageIndex` and
every think part `p` among its parts, the marked span of `p` begins in the content where the
parts before `p` end, and the identifier of `p` is made from `messageIndex` and the offset at
which the search for its match began: the start offset of the opening marker less the length of
the text part right before `p`, if there is one. -/
theorem thought_id_offset (content : JsString) (messageIndex : Nat)
    (parts before : List Part) (p : Part) (after : List Part)
    (hparts : messageParts (assistantMsg content) messageIndex = some parts)
    (hsplit : parts = before ++ p :: after) (hthink : p.type = PartType.think) :
    (openMarker ++ p.content ++ closeMarker) <+: content.drop ((before.map sourceLength).sum) ∧
    p.id = some (thoughtId messageIndex
      ((before.map sourceLength).sum - trailingTextLength before)) := by
  obtain ⟨parts', hm, hgood⟩ := messageParts_thoughtIdsAt content messageIndex
  rw [hparts] at hm
  cases hm
  exact hgood before p after hsplit hthink

/-- In `before<think>plan</think>after` at index 0 the think part follows a text part of
length 6, its opening marker begins at offset 6, and its identifier is made from offset 0. -/
theorem thought_id_offset_witness :
    (openMarker ++ js "plan" ++ closeMarker) <+: (js "before<think>plan</think>after").drop 6 ∧
    some (js "0-0") = some (thoughtId 0 (6 - 6)) :=
  thought_id_offset (js "before<think>plan</think>after") 0
    [⟨PartType.text, js "before", none⟩, ⟨PartType.think, js "plan", some (js "0-0")⟩,
      ⟨PartType.text, js "after", none⟩]
    [⟨PartType.text, js "before", none⟩] ⟨PartType.think, js "plan", some (js "0-0")⟩
    [⟨PartType.text, js "after", none⟩] (by decide) rfl rfl

/-- C8 fails at `before<think>plan</think>after` rendered at index 0: the opening marker of the
think part begins at offset 6, and the identifier of the part is `0-0`, not the `0-6` made from
that offset. -/
theorem thought_id_not_marker_offset :
    messageParts (assistantMsg (js "before<think>plan</think>after")) 0 =
      some [⟨PartType.text, js "before", none⟩, ⟨PartType.think, js "plan", some (js "0-0")⟩,
        ⟨PartType.text, js "after", none⟩] ∧
    (openMarker ++ js "plan" ++ closeMarker) <+: (js "before<think>plan</think>after").drop 6 ∧
    thoughtId 0 6 = js "0-6" ∧ js "0-0" ≠ thoughtId 0 6 := by
  have h6 : thoughtId 0 6 = js "0-6" := by
    have h : js "0-6" = [48, 45, 54] := by decide
    rw [h]
    norm_num [thoughtId, numberToString]
  refine ⟨by decide, by decide, h6, ?_⟩
  rw [h6]
  decide

end AdaChat
